import Mathlib

/-!
Verification of the Towers of Hanoi puzzle engine found in
packages/app/src/pages/index.tsx.

The board is the JS value `towers : Tower[]` — a list of three stacks of
disk sizes, bottom of a peg first, top of a peg last (JS push/pop act on
the end of the array).  Disk sizes are natural numbers; the move count is
modelled as an integer so that the `Math.max(0, m - 1)` flooring in `undo`
is visible.  JS truthiness is modelled exactly in `canDrop`: the value
`towers[i]?.at(-1)` is `none` when the peg is missing or empty (both give
`undefined` in JS, and `List.getD i []` followed by `getLast?` gives `none`
in both cases as well), and a disk value of `0` is falsy.
-/

namespace Towers

/-- One peg: disk sizes bottom-first, top of the stack at the end. -/
abbrev Tower := List Nat

/-- A move, as in the source: a `[from, to]` pair of peg indices. -/
abbrev Move := Nat × Nat

/-- `Array.from({ length: count }, (_, i) => count - i)` — the freshly
initialized peg `[count, count - 1, …, 1]` used by `resetGame`. -/
def initTower (count : Nat) : Tower :=
  (List.range count).map (fun i => count - i)

/-- `towers[i]?.at(-1)`: the top disk of peg `i`, `none` when the peg is
out of range or empty (both are `undefined` in the source). -/
def topDisk (towers : List Tower) (i : Nat) : Option Nat :=
  (towers.getD i []).getLast?

/-- The move validator `canDrop` from the source:
`if (from === to) return false; return fromDisk && (!toDisk || fromDisk < toDisk)`.
JS truthiness: an absent disk and the disk value `0` are both falsy. -/
def canDrop (towers : List Tower) (f t : Nat) : Bool :=
  if f = t then false
  else
    match topDisk towers f, topDisk towers t with
    | none, _ => false
    | some fd, none => fd != 0
    | some fd, some td => fd != 0 && (td == 0 || fd < td)

/-- The board update performed on the success path of `moveDisk`:
`const disk = next[from].pop()!; next[to].push(disk)` on a fresh copy. -/
def applyMove (towers : List Tower) (f t : Nat) : List Tower :=
  let disk := (towers.getD f []).getLastD 0
  let popped := towers.set f (towers.getD f []).dropLast
  popped.set t ((popped.getD t []) ++ [disk])

/-- `generateMoves` exactly as written, threading the `result` accumulator:
the two recursive calls extend `result`, with the `[from, to]` push in
between. -/
def generateMoves : Nat → Nat → Nat → Nat → List Move → List Move
  | 0, _, _, _, result => result
  | n + 1, f, t, a, result =>
    generateMoves n a t f ((generateMoves n f a t result) ++ [(f, t)])

/-- The mutable UI state touched by the game logic. -/
structure GameState where
  diskCount : Nat
  towers : List Tower
  selectedTower : Option Nat
  moves : Int
  shakeTower : Option Nat
  history : List (List Tower)
  future : List (List Tower)
  autoPlaying : Bool
  /-- `autoTimer.current`: when a step of an auto-solve run is scheduled,
  the board value the timer callback's closure captured when
  `startAutoSolve` ran, together with the move it will apply and the rest
  of the solution.  The callback calls the `moveDisk` closure of that
  render, whose `towers` is this captured value, not the live board. -/
  autoTimer : Option (List Tower × List Move)
deriving DecidableEq

/-- The initial `useState` values. -/
def initialState : GameState :=
  { diskCount := 3
    towers := [[3, 2, 1], [], []]
    selectedTower := none
    moves := 0
    shakeTower := none
    history := []
    future := []
    autoPlaying := false
    autoTimer := none }

/-- `stopAutoSolve`: clear the pending timer and leave auto-play. -/
def stopAutoSolve (s : GameState) : GameState :=
  { s with
    autoTimer := none
    autoPlaying := false }

/-- `resetGame(count)`: stop auto-solve, then reinitialize every piece of
state for the given disk count. -/
def resetGame (s : GameState) (count : Nat) : GameState :=
  let s1 := stopAutoSolve s
  { s1 with
    diskCount := count
    towers := [initTower count, [], []]
    moves := 0
    selectedTower := none
    shakeTower := none
    history := []
    future := [] }

/-- `moveDisk(from, to)`: on failure of `canDrop` only the shake indicator
changes (the early `return`); on success the pre-move board is pushed onto
`history`, `future` is cleared, the board is updated and the move count is
incremented. -/
def moveDisk (s : GameState) (f t : Nat) : GameState :=
  if canDrop s.towers f t then
    { s with
      history := s.history ++ [s.towers]
      future := []
      towers := applyMove s.towers f t
      moves := s.moves + 1 }
  else
    { s with shakeTower := some t }

/-- `undo()`: no-op on empty history, otherwise restore `history.at(-1)`,
push the current board on the front of `future` and floor the move count
at 0 (`Math.max(0, m - 1)`). -/
def undo (s : GameState) : GameState :=
  if s.history = [] then s
  else
    { s with
      future := s.towers :: s.future
      towers := s.history.getLastD []
      history := s.history.dropLast
      moves := max 0 (s.moves - 1) }

/-- `redo()`: no-op on empty future, otherwise replay `future[0]`. -/
def redo (s : GameState) : GameState :=
  if s.future = [] then s
  else
    { s with
      history := s.history ++ [s.towers]
      towers := s.future.headD []
      future := s.future.tail
      moves := s.moves + 1 }

/-- `isWin`: `towers[2].length === diskCount`. -/
def isWin (towers : List Tower) (diskCount : Nat) : Bool :=
  (towers.getD 2 []).length == diskCount

/-- `startAutoSolve`: stop any previous run, compute the solution for the
current disk count, enter auto-play, and run `play(0)` — which either
finishes at once (empty solution) or schedules the first step.  The
scheduled callback closes over the `towers` value of this render, so the
timer records that captured board next to the remaining move list. -/
def startAutoSolve (s : GameState) : GameState :=
  let s1 := stopAutoSolve s
  let sol := generateMoves s1.diskCount 0 2 1 []
  let s2 := { s1 with autoPlaying := true }
  if sol = [] then { s2 with autoPlaying := false }
  else { s2 with autoTimer := some (s1.towers, sol) }

/-- The `moveDisk` closure as invoked from an auto-solve timer callback.
In the source the callback calls the `moveDisk` of the render in which
`startAutoSolve` ran, and that closure's `towers` const is the board
captured at that render (a stale React closure): `canDrop`, the snapshot
pushed by `setHistory((h) => [...h, towers.map(...)])` and the board
computed by `const next = towers.map(...)` all use the captured `frozen`
board, while the functional updaters (`setHistory`, `setMoves`) and the
plain setters act on the live state. -/
def moveDiskStale (frozen : List Tower) (s : GameState) (f t : Nat) :
    GameState :=
  if canDrop frozen f t then
    { s with
      history := s.history ++ [frozen]
      future := []
      towers := applyMove frozen f t
      moves := s.moves + 1 }
  else
    { s with shakeTower := some t }

/-- Firing of the scheduled auto-solve timer: the callback applies the
scheduled move through the stale `moveDisk` closure — validated against
and applied to the board captured when `startAutoSolve` ran, not the
evolving one — then `play(i + 1)` either schedules the next step (with the
same captured board) or leaves auto-play.  With no pending timer nothing
happens.  (The `some (frozen, [])` case never arises: `play` only
schedules a step when a move remains.) -/
def tick (s : GameState) : GameState :=
  match s.autoTimer with
  | none => s
  | some (_, []) => { s with autoPlaying := false, autoTimer := none }
  | some (frozen, (f, t) :: rest) =>
    let s1 := moveDiskStale frozen { s with autoTimer := none } f t
    if rest = [] then { s1 with autoPlaying := false }
    else { s1 with autoTimer := some (frozen, rest) }

/-- Fire the auto-solve timer `k` times. -/
def runTicks : Nat → GameState → GameState
  | 0, s => s
  | k + 1, s => runTicks k (tick s)

/-- Apply a list of moves to a bare board through the board update of
`moveDisk`. -/
def runMoves (towers : List Tower) (ms : List Move) : List Tower :=
  ms.foldl (fun b m => applyMove b m.1 m.2) towers

/-- Every step of the move list passes the validator `canDrop` on the
board it is applied to. -/
def allLegal : List Tower → List Move → Bool
  | _, [] => true
  | b, (f, t) :: ms => canDrop b f t && allLegal (applyMove b f t) ms

/-- The board with all `n` disks legally stacked on peg `f` and the other
two pegs empty. -/
def soloBoard (f n : Nat) : List Tower :=
  ([[], [], []] : List Tower).set f (initTower n)

/-- The Board invariant of the spec: three pegs, each strictly decreasing
in disk size from bottom to top, and the disks across all pegs are exactly
the multiset {1, …, N}. -/
def boardInv (N : Nat) (b : List Tower) : Prop :=
  b.length = 3 ∧ (∀ p ∈ b, p.Pairwise (fun x y => x > y)) ∧
    (b.flatten : Multiset Nat) = (List.range' 1 N : Multiset Nat)

/-- Strengthened state invariant: the current board and every snapshot in
the undo history and the redo future satisfy the Board invariant for the
current disk count. -/
def stateInv (s : GameState) : Prop :=
  boardInv s.diskCount s.towers ∧
    (∀ b ∈ s.history, boardInv s.diskCount b) ∧
    (∀ b ∈ s.future, boardInv s.diskCount b)

instance decBoardInv (N : Nat) (b : List Tower) : Decidable (boardInv N b) := by
  unfold boardInv
  infer_instance

instance decStateInv (s : GameState) : Decidable (stateInv s) := by
  unfold stateInv
  infer_instance

/-- States reachable from the initial state through the public operations:
move attempts on the three pegs (the UI only ever passes peg indices
0, 1, 2), undo, redo and reset. -/
inductive Reachable : GameState → Prop where
  | init : Reachable initialState
  | move {s : GameState} (f t : Nat) : f < 3 → t < 3 → Reachable s →
      Reachable (moveDisk s f t)
  | undoStep {s : GameState} : Reachable s → Reachable (undo s)
  | redoStep {s : GameState} : Reachable s → Reachable (redo s)
  | reset {s : GameState} (count : Nat) : Reachable s →
      Reachable (resetGame s count)

/-! ### Basic list helpers -/

theorem getD_set_same {α : Type} (l : List α) {i : Nat} (x d : α)
    (h : i < l.length) : (l.set i x).getD i d = x := by
  simp [List.getD_eq_getElem?_getD, List.getElem?_set_self h]

theorem getD_set_of_ne {α : Type} (l : List α) {i j : Nat} (x d : α)
    (h : i ≠ j) : (l.set i x).getD j d = l.getD j d := by
  simp [List.getD_eq_getElem?_getD, List.getElem?_set_ne h]

theorem mem_of_getLast?_eq {α : Type} {l : List α} {a : α}
    (h : l.getLast? = some a) : a ∈ l := by
  have hne : l ≠ [] := by
    intro he
    subst he
    simp at h
  rw [List.getLast?_eq_getLast l hne] at h
  exact (Option.some.inj h) ▸ List.getLast_mem hne

theorem getD_lt_length {α : Type} {l : List α} {i : Nat} {d : α}
    (h : l.getD i d ≠ d) : i < l.length := by
  by_contra hge
  rw [List.getD_eq_getElem?_getD, List.getElem?_eq_none (by omega)] at h
  exact h rfl

/-! ### The initial peg -/

theorem initTower_zero : initTower 0 = [] := rfl

theorem initTower_succ (n : Nat) : initTower (n + 1) = (n + 1) :: initTower n := by
  unfold initTower
  rw [List.range_succ_eq_map, List.map_cons, List.map_map]
  refine congrArg₂ _ (by omega) ?_
  refine List.map_congr_left fun a _ => ?_
  simp [Function.comp]

theorem mem_initTower {x n : Nat} : x ∈ initTower n ↔ 1 ≤ x ∧ x ≤ n := by
  induction n with
  | zero =>
    rw [initTower_zero]
    simp
    omega
  | succ n ih =>
    rw [initTower_succ]
    simp [ih]
    omega

theorem pairwise_initTower (n : Nat) :
    (initTower n).Pairwise (fun x y => x > y) := by
  induction n with
  | zero =>
    rw [initTower_zero]
    simp
  | succ n ih =>
    rw [initTower_succ]
    refine List.pairwise_cons.mpr ⟨?_, ih⟩
    intro y hy
    have := (mem_initTower.mp hy).2
    omega

theorem initTower_perm (n : Nat) : (initTower n).Perm (List.range' 1 n) := by
  induction n with
  | zero =>
    rw [initTower_zero]
    simp
  | succ n ih =>
    rw [initTower_succ, List.range'_concat]
    refine List.Perm.trans (List.Perm.cons _ ih) ?_
    have h := (List.perm_append_singleton (n + 1) (List.range' 1 n)).symm
    have he : 1 + 1 * n = n + 1 := by omega
    rw [he]
    simpa using h

/-! ### Pairwise-decreasing pegs -/

theorem getLast_le_of_pairwise : ∀ (l : List Nat) (td : Nat),
    l.Pairwise (fun x y => x > y) → l.getLast? = some td → ∀ x ∈ l, td ≤ x := by
  intro l
  induction l with
  | nil =>
    intro td _ h
    simp at h
  | cons a l ih =>
    intro td hp h x hx
    cases l with
    | nil =>
      simp at h hx
      omega
    | cons b l2 =>
      rw [List.getLast?_cons_cons] at h
      rcases List.mem_cons.mp hx with rfl | hx2
      · have htd : td ∈ b :: l2 := mem_of_getLast?_eq h
        have := (List.pairwise_cons.mp hp).1 td htd
        omega
      · exact ih td (List.pairwise_cons.mp hp).2 h x hx2

/-! ### The validator -/

theorem canDrop_eq_true_iff {b : List Tower} {f t : Nat} :
    canDrop b f t = true ↔
      f ≠ t ∧ ∃ fd, topDisk b f = some fd ∧ fd ≠ 0 ∧
        (topDisk b t = none ∨
          ∃ td, topDisk b t = some td ∧ (td = 0 ∨ fd < td)) := by
  by_cases hft : f = t
  · simp [canDrop, hft]
  · rcases hf : topDisk b f with _ | fd <;> rcases ht : topDisk b t with _ | td <;>
      simp [canDrop, hft, hf, ht]

theorem topDisk_some_facts {b : List Tower} {f fd : Nat}
    (h : topDisk b f = some fd) : f < b.length ∧ b.getD f [] ≠ [] := by
  have hne : b.getD f [] ≠ [] := by
    intro he
    rw [topDisk, he] at h
    simp at h
  exact ⟨getD_lt_length hne, hne⟩

theorem mem_flatten_of_getD {b : List Tower} {i x : Nat} (hi : i < b.length)
    (hx : x ∈ b.getD i []) : x ∈ b.flatten := by
  refine List.mem_flatten.mpr ⟨b.getD i [], ?_, hx⟩
  rw [List.getD_eq_getElem _ _ hi]
  exact List.getElem_mem hi

theorem getD_mem_of_lt {b : List Tower} {i : Nat} (hi : i < b.length) :
    b.getD i [] ∈ b := by
  rw [List.getD_eq_getElem _ _ hi]
  exact List.getElem_mem hi

/-! ### Consequences of the Board invariant -/

theorem boardInv_mem_bounds {N : Nat} {b : List Tower} (h : boardInv N b)
    {x : Nat} (hx : x ∈ b.flatten) : 1 ≤ x ∧ x ≤ N := by
  have hperm : b.flatten.Perm (List.range' 1 N) := Multiset.coe_eq_coe.mp h.2.2
  have hm := hperm.mem_iff.mp hx
  have := List.mem_range'_1.mp hm
  omega

theorem boardInv_nodup {N : Nat} {b : List Tower} (h : boardInv N b) :
    b.flatten.Nodup :=
  (Multiset.coe_eq_coe.mp h.2.2).nodup_iff.mpr (List.nodup_range' 1 N)

theorem ne_of_mem_distinct_pegs {b : List Tower} (hnd : b.flatten.Nodup)
    {i j : Nat} (hij : i ≠ j) (hi : i < b.length) (hj : j < b.length)
    {x y : Nat} (hx : x ∈ b.getD i []) (hy : y ∈ b.getD j []) : x ≠ y := by
  have hpd := (List.nodup_flatten.mp hnd).2
  rw [List.pairwise_iff_getElem] at hpd
  rw [List.getD_eq_getElem _ _ hi] at hx
  rw [List.getD_eq_getElem _ _ hj] at hy
  rcases Nat.lt_or_ge i j with hlt | hge
  · have hd := hpd i j hi hj hlt
    intro he
    exact hd hx (he ▸ hy)
  · have hlt2 : j < i := by omega
    have hd := hpd j i hj hi hlt2
    intro he
    exact hd hy (he ▸ hx)

/-! ### The board update -/

theorem dropLast_append_getLastD {l : List Nat} (h : l ≠ []) :
    l.dropLast ++ [l.getLastD 0] = l := by
  rw [List.getLastD_eq_getLast?, List.getLast?_eq_getLast l h]
  simpa using List.dropLast_append_getLast h

theorem applyMove_getD {b : List Tower} {f t : Nat} (hf : f < b.length)
    (ht : t < b.length) (hft : f ≠ t) :
    (applyMove b f t).getD f [] = (b.getD f []).dropLast ∧
    (applyMove b f t).getD t [] = b.getD t [] ++ [(b.getD f []).getLastD 0] ∧
    (∀ i, i ≠ f → i ≠ t → (applyMove b f t).getD i [] = b.getD i []) ∧
    (applyMove b f t).length = b.length := by
  have hlen : (b.set f (b.getD f []).dropLast).length = b.length :=
    List.length_set b f _
  refine ⟨?_, ?_, ?_, ?_⟩
  · rw [applyMove]
    rw [getD_set_of_ne _ _ _ (Ne.symm hft), getD_set_same _ _ _ hf]
  · rw [applyMove]
    rw [getD_set_same _ _ _ (by rw [hlen]; exact ht),
      getD_set_of_ne _ _ _ hft]
  · intro i hif hit
    rw [applyMove]
    rw [getD_set_of_ne _ _ _ (Ne.symm hit), getD_set_of_ne _ _ _ (Ne.symm hif)]
  · rw [applyMove]
    rw [List.length_set, List.length_set]

theorem dropLast_append_getLast?_getD {l : List Nat} (h : l ≠ []) :
    l.dropLast ++ [l.getLast?.getD 0] = l := by
  rw [← List.getLastD_eq_getLast?]
  exact dropLast_append_getLastD h

theorem flatten_applyMove_perm {b : List Tower} (hlen : b.length = 3)
    {f t : Nat} (hf : f < 3) (ht : t < 3) (hft : f ≠ t)
    (hne : b.getD f [] ≠ []) :
    (applyMove b f t).flatten.Perm b.flatten := by
  obtain ⟨p0, p1, p2, rfl⟩ := List.length_eq_three.mp hlen
  interval_cases f <;> interval_cases t
  · exact absurd rfl hft
  · have h0 : p0 ≠ [] := by simpa using hne
    simp [applyMove]
    conv_rhs => rw [← dropLast_append_getLast?_getD h0]
    rw [← Multiset.coe_eq_coe]
    simp only [← Multiset.coe_add, ← Multiset.cons_coe, ← Multiset.singleton_add]
    abel
  · have h0 : p0 ≠ [] := by simpa using hne
    simp [applyMove]
    conv_rhs => rw [← dropLast_append_getLast?_getD h0]
    rw [← Multiset.coe_eq_coe]
    simp only [← Multiset.coe_add, ← Multiset.cons_coe, ← Multiset.singleton_add]
    abel
  · have h1 : p1 ≠ [] := by simpa using hne
    simp [applyMove]
    conv_rhs => rw [← dropLast_append_getLast?_getD h1]
    rw [← Multiset.coe_eq_coe]
    simp only [← Multiset.coe_add, ← Multiset.cons_coe, ← Multiset.singleton_add]
    abel
  · exact absurd rfl hft
  · have h1 : p1 ≠ [] := by simpa using hne
    simp [applyMove]
    conv_rhs => rw [← dropLast_append_getLast?_getD h1]
    rw [← Multiset.coe_eq_coe]
    simp only [← Multiset.coe_add, ← Multiset.cons_coe, ← Multiset.singleton_add]
    abel
  · have h2 : p2 ≠ [] := by simpa using hne
    simp [applyMove]
    conv_rhs => rw [← dropLast_append_getLast?_getD h2]
    rw [← Multiset.coe_eq_coe]
    simp only [← Multiset.coe_add, ← Multiset.cons_coe, ← Multiset.singleton_add]
    abel
  · have h2 : p2 ≠ [] := by simpa using hne
    simp [applyMove]
    conv_rhs => rw [← dropLast_append_getLast?_getD h2]
    rw [← Multiset.coe_eq_coe]
    simp only [← Multiset.coe_add, ← Multiset.cons_coe, ← Multiset.singleton_add]
    abel
  · exact absurd rfl hft

theorem boardInv_applyMove {N : Nat} {b : List Tower} (hInv : boardInv N b)
    {f t : Nat} (hcd : canDrop b f t = true) (ht3 : t < 3) :
    boardInv N (applyMove b f t) := by
  have hlen := hInv.1
  have hpair := hInv.2.1
  have hmult := hInv.2.2
  obtain ⟨hft, fd, hfd, hfd0, htd⟩ := canDrop_eq_true_iff.mp hcd
  obtain ⟨hflt, hfne⟩ := topDisk_some_facts hfd
  have htlt : t < b.length := by omega
  have hf3 : f < 3 := by omega
  obtain ⟨hAf, hAt, hAo, hAlen⟩ := applyMove_getD hflt htlt hft
  have hd_eq : (b.getD f []).getLastD 0 = fd := by
    rw [List.getLastD_eq_getLast?]
    rw [topDisk] at hfd
    rw [hfd]
    rfl
  refine ⟨by omega, ?_, ?_⟩
  · intro p hp
    obtain ⟨i, hilt, hieq⟩ := List.mem_iff_getElem.mp hp
    have hpD : p = (applyMove b f t).getD i [] := by
      rw [List.getD_eq_getElem _ _ hilt, hieq]
    by_cases hif : i = f
    · subst hif
      rw [hpD, hAf]
      exact List.Pairwise.sublist (List.dropLast_sublist _)
        (hpair _ (getD_mem_of_lt hflt))
    · by_cases hit : i = t
      · subst hit
        rw [hpD, hAt, hd_eq]
        rw [List.pairwise_append]
        refine ⟨hpair _ (getD_mem_of_lt htlt), by simp, ?_⟩
        intro x hx y hy
        rw [List.mem_singleton] at hy
        rw [hy]
        rcases htd with hnone | ⟨td, htdeq, htd0lt⟩
        · rw [topDisk, List.getLast?_eq_none_iff] at hnone
          rw [hnone] at hx
          simp at hx
        · rw [topDisk] at htdeq
          have htmem : td ∈ b.getD i [] := mem_of_getLast?_eq htdeq
          have htflat : td ∈ b.flatten := mem_flatten_of_getD htlt htmem
          have hbd := boardInv_mem_bounds hInv htflat
          have hfl : fd < td := by
            rcases htd0lt with h0 | hlt
            · omega
            · exact hlt
          have hle := getLast_le_of_pairwise _ td
            (hpair _ (getD_mem_of_lt htlt)) htdeq x hx
          omega
      · rw [hpD, hAo i hif hit]
        have hilt2 : i < b.length := by
          rw [hAlen] at hilt
          exact hilt
        exact hpair _ (getD_mem_of_lt hilt2)
  · have hperm := flatten_applyMove_perm hlen hf3 ht3 hft hfne
    calc ((applyMove b f t).flatten : Multiset Nat)
        = (b.flatten : Multiset Nat) := Multiset.coe_eq_coe.mpr hperm
      _ = (List.range' 1 N : Multiset Nat) := hmult

/-! ### Preservation of the state invariant by every public operation -/

theorem stateInv_initial : stateInv initialState := by
  refine ⟨⟨rfl, ?_, by decide⟩, by simp [initialState], by simp [initialState]⟩
  decide

theorem stateInv_moveDisk {s : GameState} (h : stateInv s) {f t : Nat}
    (ht3 : t < 3) : stateInv (moveDisk s f t) := by
  by_cases hcd : canDrop s.towers f t = true
  · simp only [stateInv, moveDisk, hcd, if_true]
    refine ⟨boardInv_applyMove h.1 hcd ht3, ?_, by simp⟩
    intro b hb
    rcases List.mem_append.mp hb with h1 | h2
    · exact h.2.1 b h1
    · rw [List.mem_singleton] at h2
      rw [h2]
      exact h.1
  · simp only [stateInv, moveDisk, hcd, if_false]
    exact h

theorem stateInv_undo {s : GameState} (h : stateInv s) : stateInv (undo s) := by
  by_cases hh : s.history = []
  · simp only [undo, hh, if_true]
    exact h
  · simp only [stateInv, undo, hh, if_false]
    refine ⟨?_, ?_, ?_⟩
    · have hmem : s.history.getLastD [] ∈ s.history := by
        rw [List.getLastD_eq_getLast?, List.getLast?_eq_getLast _ hh]
        exact List.getLast_mem hh
      exact h.2.1 _ hmem
    · intro b hb
      exact h.2.1 b (List.dropLast_subset _ hb)
    · intro b hb
      rcases List.mem_cons.mp hb with hb1 | hb2
      · rw [hb1]
        exact h.1
      · exact h.2.2 b hb2

theorem stateInv_redo {s : GameState} (h : stateInv s) : stateInv (redo s) := by
  by_cases hh : s.future = []
  · simp only [redo, hh, if_true]
    exact h
  · simp only [stateInv, redo, hh, if_false]
    refine ⟨?_, ?_, ?_⟩
    · have hmem : s.future.headD [] ∈ s.future := by
        cases hf : s.future with
        | nil => exact absurd hf hh
        | cons a l => simp [hf]
      exact h.2.2 _ hmem
    · intro b hb
      rcases List.mem_append.mp hb with h1 | h2
      · exact h.2.1 b h1
      · rw [List.mem_singleton] at h2
        rw [h2]
        exact h.1
    · intro b hb
      exact h.2.2 b (List.tail_subset _ hb)

theorem boardInv_reset (count : Nat) :
    boardInv count [initTower count, [], []] := by
  refine ⟨rfl, ?_, ?_⟩
  · intro p hp
    rcases List.mem_cons.mp hp with h1 | h2
    · rw [h1]
      exact pairwise_initTower count
    · have : p = [] := by
        rcases List.mem_cons.mp h2 with h3 | h4
        · exact h3
        · simpa using h4
      rw [this]
      simp
  · have : ([initTower count, [], []] : List Tower).flatten = initTower count := by
      simp
    rw [this]
    exact Multiset.coe_eq_coe.mpr (initTower_perm count)

theorem stateInv_reset (s : GameState) (count : Nat) :
    stateInv (resetGame s count) := by
  refine ⟨boardInv_reset count, by simp [resetGame, stopAutoSolve], ?_⟩
  simp [resetGame, stopAutoSolve]

theorem stateInv_reachable {s : GameState} (h : Reachable s) : stateInv s := by
  induction h with
  | init => exact stateInv_initial
  | move f t hf ht _ ih => exact stateInv_moveDisk ih ht
  | undoStep _ ih => exact stateInv_undo ih
  | redoStep _ ih => exact stateInv_redo ih
  | reset count _ ih => exact stateInv_reset _ count

/-! ### The move generator -/

theorem generateMoves_acc (n : Nat) : ∀ (f t a : Nat) (res : List Move),
    generateMoves n f t a res = res ++ generateMoves n f t a [] := by
  induction n with
  | zero =>
    intro f t a res
    simp [generateMoves]
  | succ n ih =>
    intro f t a res
    simp only [generateMoves]
    rw [ih a t f (generateMoves n f a t res ++ [(f, t)]),
      ih a t f (generateMoves n f a t [] ++ [(f, t)]),
      ih f a t res]
    simp [List.append_assoc]

theorem generateMoves_succ_nil (n f t a : Nat) :
    generateMoves (n + 1) f t a [] =
      generateMoves n f a t [] ++ (f, t) :: generateMoves n a t f [] := by
  simp only [generateMoves]
  rw [generateMoves_acc n a t f]
  simp

theorem length_generateMoves (n : Nat) : ∀ (f t a : Nat),
    (generateMoves n f t a []).length = 2 ^ n - 1 := by
  induction n with
  | zero =>
    intro f t a
    simp [generateMoves]
  | succ n ih =>
    intro f t a
    rw [generateMoves_succ_nil]
    simp only [List.length_append, List.length_cons, ih]
    have h1 : 1 ≤ 2 ^ n := Nat.one_le_two_pow
    rw [pow_succ]
    omega

/-! ### Running and validating move sequences -/

theorem runMoves_nil (b : List Tower) : runMoves b [] = b := rfl

theorem runMoves_cons (b : List Tower) (m : Move) (ms : List Move) :
    runMoves b (m :: ms) = runMoves (applyMove b m.1 m.2) ms := rfl

theorem runMoves_append (b : List Tower) (xs ys : List Move) :
    runMoves b (xs ++ ys) = runMoves (runMoves b xs) ys :=
  List.foldl_append _ _ xs ys

theorem length_applyMove (b : List Tower) (f t : Nat) :
    (applyMove b f t).length = b.length := by
  rw [applyMove]
  rw [List.length_set, List.length_set]

theorem length_runMoves (ms : List Move) : ∀ (b : List Tower),
    (runMoves b ms).length = b.length := by
  induction ms with
  | nil =>
    intro b
    rfl
  | cons m ms ih =>
    intro b
    rw [runMoves_cons, ih, length_applyMove]

theorem allLegal_append (xs : List Move) : ∀ (b : List Tower) (ys : List Move),
    allLegal b (xs ++ ys) = (allLegal b xs && allLegal (runMoves b xs) ys) := by
  induction xs with
  | nil =>
    intro b ys
    simp [allLegal, runMoves_nil]
  | cons m ms ih =>
    intro b ys
    cases m with
    | mk f t =>
      simp only [List.cons_append, allLegal, List.append_eq, ih, runMoves_cons,
        Bool.and_assoc]

/-! ### Correctness of the recursive solver -/

theorem hanoi_general : ∀ (n : Nat) (f t a : Nat), f < 3 → t < 3 → a < 3 →
    f ≠ t → f ≠ a → t ≠ a → ∀ (b : List Tower), b.length = 3 →
    ∀ (u v w : List Nat),
    b.getD f [] = u ++ initTower n → b.getD t [] = v → b.getD a [] = w →
    (∀ x ∈ u, n < x) → (∀ x ∈ v, n < x) → (∀ x ∈ w, n < x) →
    allLegal b (generateMoves n f t a []) = true ∧
    (runMoves b (generateMoves n f t a [])).getD f [] = u ∧
    (runMoves b (generateMoves n f t a [])).getD t [] = v ++ initTower n ∧
    (runMoves b (generateMoves n f t a [])).getD a [] = w := by
  intro n
  induction n with
  | zero =>
    intro f t a hf ht ha hft hfa hta b hblen u v w hbf hbt hba hu hv hw
    refine ⟨rfl, ?_, ?_, ?_⟩
    · rw [show runMoves b (generateMoves 0 f t a []) = b from rfl, hbf,
        initTower_zero, List.append_nil]
    · rw [show runMoves b (generateMoves 0 f t a []) = b from rfl, hbt,
        initTower_zero, List.append_nil]
    · rw [show runMoves b (generateMoves 0 f t a []) = b from rfl, hba]
  | succ n ih =>
    intro f t a hf ht ha hft hfa hta b hblen u v w hbf hbt hba hu hv hw
    rw [generateMoves_succ_nil]
    have hbf1 : b.getD f [] = (u ++ [n + 1]) ++ initTower n := by
      rw [hbf, initTower_succ, List.append_cons]
    have hu1 : ∀ x ∈ u ++ [n + 1], n < x := by
      intro x hx
      rcases List.mem_append.mp hx with h1 | h2
      · have := hu x h1
        omega
      · rw [List.mem_singleton] at h2
        omega
    have hv1 : ∀ x ∈ v, n < x := by
      intro x hx
      have := hv x hx
      omega
    have hw1 : ∀ x ∈ w, n < x := by
      intro x hx
      have := hw x hx
      omega
    obtain ⟨hleg1, hb1f, hb1a, hb1t⟩ :=
      ih f a t hf ha ht hfa hft (Ne.symm hta) b hblen (u ++ [n + 1]) w v
        hbf1 hba hbt hu1 hw1 hv1
    have hb1len : (runMoves b (generateMoves n f a t [])).length = 3 := by
      rw [length_runMoves]
      exact hblen
    have hcd : canDrop (runMoves b (generateMoves n f a t [])) f t = true := by
      refine canDrop_eq_true_iff.mpr ⟨hft, n + 1, ?_, by omega, ?_⟩
      · rw [topDisk, hb1f, List.getLast?_concat]
      · rw [topDisk, hb1t]
        cases hvl : v.getLast? with
        | none => exact Or.inl rfl
        | some td =>
          refine Or.inr ⟨td, rfl, Or.inr ?_⟩
          exact hv td (mem_of_getLast?_eq hvl)
    obtain ⟨hAf, hAt, hAo, hAlen⟩ :=
      applyMove_getD (b := runMoves b (generateMoves n f a t []))
        (by omega) (by omega) hft
    have hb2f : (applyMove (runMoves b (generateMoves n f a t [])) f t).getD f []
        = u := by
      rw [hAf, hb1f, List.dropLast_concat]
    have hb2t : (applyMove (runMoves b (generateMoves n f a t [])) f t).getD t []
        = v ++ [n + 1] := by
      rw [hAt, hb1t, hb1f, List.getLastD_concat]
    have hb2a : (applyMove (runMoves b (generateMoves n f a t [])) f t).getD a []
        = w ++ initTower n := by
      rw [hAo a (Ne.symm hfa) (Ne.symm hta), hb1a]
    have hb2len : (applyMove (runMoves b (generateMoves n f a t [])) f t).length
        = 3 := by
      rw [hAlen]
      exact hb1len
    have hu2 : ∀ x ∈ u, n < x := by
      intro x hx
      have := hu x hx
      omega
    have hv2b : ∀ x ∈ v ++ [n + 1], n < x := by
      intro x hx
      rcases List.mem_append.mp hx with h1 | h2
      · exact hv1 x h1
      · rw [List.mem_singleton] at h2
        omega
    obtain ⟨hleg2, hb3a, hb3t, hb3f⟩ :=
      ih a t f ha ht hf (Ne.symm hta) (Ne.symm hfa) (Ne.symm hft)
        (applyMove (runMoves b (generateMoves n f a t [])) f t) hb2len
        w (v ++ [n + 1]) u hb2a hb2t hb2f hw1 hv2b hu2
    have hrun : runMoves b (generateMoves n f a t [] ++
          (f, t) :: generateMoves n a t f []) =
        runMoves (applyMove (runMoves b (generateMoves n f a t [])) f t)
          (generateMoves n a t f []) := by
      rw [runMoves_append, runMoves_cons]
    refine ⟨?_, ?_, ?_, ?_⟩
    · rw [allLegal_append, hleg1]
      simp only [allLegal, hcd, hleg2]
      rfl
    · rw [hrun]
      exact hb3f
    · rw [hrun, hb3t, List.append_assoc, List.singleton_append, ← initTower_succ]
    · rw [hrun]
      exact hb3a

/-! ### Claim C1 -/

/-- C1: every board reachable from the initial board through the public
operations (move attempts via moveDisk, undo, redo, reset) has three pegs,
each strictly decreasing in disk size from bottom to top, and the multiset
of all disks across the pegs is exactly {1, …, N} for the current disk
count N. -/
theorem reachable_board_invariant (s : GameState) (h : Reachable s) :
    s.towers.length = 3 ∧
    (∀ p ∈ s.towers, p.Pairwise (fun x y => x > y)) ∧
    (s.towers.flatten : Multiset Nat) =
      (List.range' 1 s.diskCount : Multiset Nat) :=
  (stateInv_reachable h).1

theorem reachable_board_invariant_witness :
    initialState.towers.length = 3 ∧
    (∀ p ∈ initialState.towers, p.Pairwise (fun x y => x > y)) ∧
    (initialState.towers.flatten : Multiset Nat) =
      (List.range' 1 initialState.diskCount : Multiset Nat) :=
  reachable_board_invariant initialState Reachable.init

/-! ### Claim C3 -/

/-- C3: on a board satisfying the Board invariant and peg indices below 3,
canDrop returns false exactly when the pegs coincide, the source peg is
empty, or the destination peg is non-empty with a top disk smaller than
the source peg's top disk; otherwise it returns true. -/
theorem canDrop_false_iff {N : Nat} {b : List Tower} (hInv : boardInv N b)
    {f t : Nat} (hf : f < 3) (ht : t < 3) :
    canDrop b f t = false ↔
      f = t ∨ b.getD f [] = [] ∨
      ∃ fd td, (b.getD f []).getLast? = some fd ∧
        (b.getD t []).getLast? = some td ∧ td < fd := by
  have hlen := hInv.1
  by_cases hft : f = t
  · simp [canDrop, hft]
  · rcases hfd : (b.getD f []).getLast? with _ | fd
    · have hc : canDrop b f t = false := by
        simp only [canDrop, topDisk, hfd, if_neg hft]
      have hemp : b.getD f [] = [] := List.getLast?_eq_none_iff.mp hfd
      exact iff_of_true hc (Or.inr (Or.inl hemp))
    · have htf : topDisk b f = some fd := by
        rw [topDisk, hfd]
      obtain ⟨hflt, hfne⟩ := topDisk_some_facts htf
      have hfmem : fd ∈ b.getD f [] := mem_of_getLast?_eq hfd
      have hfbounds :=
        boardInv_mem_bounds hInv (mem_flatten_of_getD hflt hfmem)
      rcases htd : (b.getD t []).getLast? with _ | td
      · have hc : canDrop b f t = (fd != 0) := by
          simp only [canDrop, topDisk, hfd, htd, if_neg hft]
        have hcf : canDrop b f t = true := by
          rw [hc]
          simp
          omega
        refine iff_of_false (by rw [hcf]; simp) ?_
        rintro (h1 | h2 | ⟨fd2, td2, hfd2, htd2, hlt2⟩)
        · exact hft h1
        · exact hfne h2
        · exact Option.noConfusion htd2
      · have hc : canDrop b f t = (fd != 0 && (td == 0 || fd < td)) := by
          simp only [canDrop, topDisk, hfd, htd, if_neg hft]
        have htlt : t < b.length := by omega
        have htmem : td ∈ b.getD t [] := mem_of_getLast?_eq htd
        have htbounds :=
          boardInv_mem_bounds hInv (mem_flatten_of_getD htlt htmem)
        have hne : fd ≠ td :=
          ne_of_mem_distinct_pegs (boardInv_nodup hInv) hft hflt htlt
            hfmem htmem
        by_cases hlt : fd < td
        · have hcf : canDrop b f t = true := by
            rw [hc]
            simp
            omega
          refine iff_of_false (by rw [hcf]; simp) ?_
          rintro (h1 | h2 | ⟨fd2, td2, hfd2, htd2, hlt2⟩)
          · exact hft h1
          · exact hfne h2
          · have e1 := Option.some.inj hfd2
            have e2 := Option.some.inj htd2
            omega
        · have htdlt : td < fd := by omega
          have hcf : canDrop b f t = false := by
            rw [hc]
            simp
            omega
          exact iff_of_true hcf (Or.inr (Or.inr ⟨fd, td, rfl, rfl, htdlt⟩))

theorem canDrop_false_iff_witness :
    canDrop [[3, 2, 1], [], []] 0 1 = false ↔
      (0 : Nat) = 1 ∨ ([[3, 2, 1], [], []] : List Tower).getD 0 [] = [] ∨
      ∃ fd td, (([[3, 2, 1], [], []] : List Tower).getD 0 []).getLast? = some fd ∧
        (([[3, 2, 1], [], []] : List Tower).getD 1 []).getLast? = some td ∧
        td < fd :=
  canDrop_false_iff (N := 3) (by decide) (by decide) (by decide)

/-! ### Claim C4 -/

/-- C4: a move attempt rejected by canDrop leaves the board, the move
count, the undo history and the redo future unchanged; the rejection is
signalled (only) through the transient shake indicator, not an error —
moveDisk is total and returns the otherwise-unchanged state. -/
theorem moveDisk_rejected (s : GameState) (f t : Nat)
    (h : canDrop s.towers f t = false) :
    (moveDisk s f t).towers = s.towers ∧
    (moveDisk s f t).moves = s.moves ∧
    (moveDisk s f t).history = s.history ∧
    (moveDisk s f t).future = s.future ∧
    (moveDisk s f t).shakeTower = some t := by
  rw [moveDisk, if_neg (by simp [h])]
  exact ⟨rfl, rfl, rfl, rfl, rfl⟩

theorem moveDisk_rejected_witness :
    (moveDisk initialState 1 2).towers = initialState.towers ∧
    (moveDisk initialState 1 2).moves = initialState.moves ∧
    (moveDisk initialState 1 2).history = initialState.history ∧
    (moveDisk initialState 1 2).future = initialState.future ∧
    (moveDisk initialState 1 2).shakeTower = some 2 :=
  moveDisk_rejected initialState 1 2 (by decide)

/-! ### Claim C5 -/

/-- C5: a move accepted by canDrop pops the top disk off the source peg
and pushes it onto the destination peg, leaves the third peg unchanged,
increments the move count by exactly 1, appends the pre-move board to the
undo history and empties the redo future. -/
theorem moveDisk_success (s : GameState) (f t : Nat)
    (h : canDrop s.towers f t = true) (ht : t < s.towers.length) :
    s.towers.getD f [] ≠ [] ∧
    (moveDisk s f t).towers.getD f [] = (s.towers.getD f []).dropLast ∧
    (moveDisk s f t).towers.getD t [] =
      s.towers.getD t [] ++ [(s.towers.getD f []).getLastD 0] ∧
    (∀ i, i ≠ f → i ≠ t →
      (moveDisk s f t).towers.getD i [] = s.towers.getD i []) ∧
    (moveDisk s f t).moves = s.moves + 1 ∧
    (moveDisk s f t).history = s.history ++ [s.towers] ∧
    (moveDisk s f t).future = [] := by
  obtain ⟨hft, fd, hfd, _, _⟩ := canDrop_eq_true_iff.mp h
  obtain ⟨hflt, hfne⟩ := topDisk_some_facts hfd
  obtain ⟨hAf, hAt, hAo, _⟩ := applyMove_getD hflt ht hft
  rw [moveDisk, if_pos h]
  exact ⟨hfne, hAf, hAt, hAo, rfl, rfl, rfl⟩

theorem moveDisk_success_witness :
    initialState.towers.getD 0 [] ≠ [] ∧
    (moveDisk initialState 0 2).towers.getD 0 [] =
      (initialState.towers.getD 0 []).dropLast ∧
    (moveDisk initialState 0 2).towers.getD 2 [] =
      initialState.towers.getD 2 [] ++
        [(initialState.towers.getD 0 []).getLastD 0] ∧
    (∀ i, i ≠ 0 → i ≠ 2 →
      (moveDisk initialState 0 2).towers.getD i [] =
        initialState.towers.getD i []) ∧
    (moveDisk initialState 0 2).moves = initialState.moves + 1 ∧
    (moveDisk initialState 0 2).history =
      initialState.history ++ [initialState.towers] ∧
    (moveDisk initialState 0 2).future = [] :=
  moveDisk_success initialState 0 2 (by decide) (by decide)

/-! ### Claim C6 -/

/-- C6: the move sequence of generateMoves has length exactly 2 ^ n − 1
and arises from the standard recursive decomposition, with the empty
sequence at n = 0. -/
theorem generateMoves_length_and_decomposition (n f t a : Nat) :
    (generateMoves n f t a []).length = 2 ^ n - 1 ∧
    generateMoves 0 f t a [] = [] ∧
    generateMoves (n + 1) f t a [] =
      generateMoves n f a t [] ++ (f, t) :: generateMoves n a t f [] :=
  ⟨length_generateMoves n f t a, rfl, generateMoves_succ_nil n f t a⟩

/-! ### Claim C7 -/

/-- C7: undo is a no-op on an empty history; otherwise it removes the last
history entry, prepends the current board to the redo future, restores that
removed entry as the current board, and decrements the move count by 1
floored at 0. -/
theorem undo_spec (s : GameState) :
    (s.history = [] → undo s = s) ∧
    (s.history ≠ [] →
      (undo s).history = s.history.dropLast ∧
      (undo s).future = s.towers :: s.future ∧
      s.history.getLast? = some (undo s).towers ∧
      (undo s).moves = max 0 (s.moves - 1)) := by
  constructor
  · intro h
    rw [undo, if_pos h]
  · intro h
    rw [undo, if_neg h]
    refine ⟨rfl, rfl, ?_, rfl⟩
    simp [List.getLastD_eq_getLast?, List.getLast?_eq_getLast _ h]

theorem undo_spec_witness :
    (undo (moveDisk initialState 0 2)).history =
      (moveDisk initialState 0 2).history.dropLast ∧
    (undo (moveDisk initialState 0 2)).future =
      (moveDisk initialState 0 2).towers ::
        (moveDisk initialState 0 2).future ∧
    (moveDisk initialState 0 2).history.getLast? =
      some (undo (moveDisk initialState 0 2)).towers ∧
    (undo (moveDisk initialState 0 2)).moves =
      max 0 ((moveDisk initialState 0 2).moves - 1) :=
  (undo_spec (moveDisk initialState 0 2)).2 (by decide)

/-! ### Claim C2 -/

theorem eq_of_getD_three {b c : List Tower} (hb : b.length = 3)
    (hc : c.length = 3) (h : ∀ i, i < 3 → b.getD i [] = c.getD i []) :
    b = c := by
  obtain ⟨x0, x1, x2, rfl⟩ := List.length_eq_three.mp hb
  obtain ⟨y0, y1, y2, rfl⟩ := List.length_eq_three.mp hc
  have h0 := h 0 (by omega)
  have h1 := h 1 (by omega)
  have h2 := h 2 (by omega)
  simp only [List.getD_cons_zero, List.getD_cons_succ] at h0 h1 h2
  rw [h0, h1, h2]

theorem getD_emptyBoard (i : Nat) :
    ([[], [], []] : List Tower).getD i [] = [] := by
  rcases i with _ | _ | _ | i <;> rfl

theorem length_soloBoard (f n : Nat) : (soloBoard f n).length = 3 := by
  rw [soloBoard, List.length_set]
  rfl

theorem getD_soloBoard_same {f : Nat} (hf : f < 3) (n : Nat) :
    (soloBoard f n).getD f [] = initTower n := by
  rw [soloBoard]
  exact getD_set_same _ _ _ (by simpa using hf)

theorem getD_soloBoard_of_ne {f i : Nat} (hfi : f ≠ i) (n : Nat) :
    (soloBoard f n).getD i [] = [] := by
  rw [soloBoard, getD_set_of_ne _ _ _ hfi, getD_emptyBoard]

/-- C2: for every n and distinct peg indices below 3, the moves of
generateMoves(n, f, t, a), applied in order to the board holding all n
disks on peg f, all pass the validator canDrop, and the final board holds
all n disks on peg t. -/
theorem generateMoves_solves (n f t a : Nat) (hf : f < 3) (ht : t < 3)
    (ha : a < 3) (hft : f ≠ t) (hfa : f ≠ a) (hta : t ≠ a) :
    allLegal (soloBoard f n) (generateMoves n f t a []) = true ∧
    runMoves (soloBoard f n) (generateMoves n f t a []) = soloBoard t n := by
  obtain ⟨hleg, hrf, hrt, hra⟩ :=
    hanoi_general n f t a hf ht ha hft hfa hta (soloBoard f n)
      (length_soloBoard f n) [] [] []
      (by rw [getD_soloBoard_same hf]; simp)
      (getD_soloBoard_of_ne hft n) (getD_soloBoard_of_ne hfa n)
      (by simp) (by simp) (by simp)
  refine ⟨hleg, ?_⟩
  refine eq_of_getD_three
    (by rw [length_runMoves]; exact length_soloBoard f n)
    (length_soloBoard t n) ?_
  intro i hi
  by_cases hif : i = f
  · rw [hif, hrf, getD_soloBoard_of_ne (Ne.symm hft) n]
  · by_cases hit : i = t
    · rw [hit, hrt, getD_soloBoard_same ht]
      simp
    · have hia : i = a := by omega
      rw [hia, hra, getD_soloBoard_of_ne hta n]

theorem generateMoves_solves_witness :
    allLegal (soloBoard 0 3) (generateMoves 3 0 2 1 []) = true ∧
    runMoves (soloBoard 0 3) (generateMoves 3 0 2 1 []) = soloBoard 2 3 :=
  generateMoves_solves 3 0 2 1 (by decide) (by decide) (by decide)
    (by decide) (by decide) (by decide)

/-! ### Claim C8 -/

/-- C8: after a successful move, undo restores exactly the pre-move board
and decrements the move count by 1, and redo immediately after that undo
restores exactly the board that was undone and increments the move count
by 1 — an undo-then-redo round trip on board and move count. -/
theorem move_undo_redo_roundtrip (s : GameState) (f t : Nat)
    (h : canDrop s.towers f t = true) (hm : 0 ≤ s.moves) :
    (undo (moveDisk s f t)).towers = s.towers ∧
    (undo (moveDisk s f t)).moves = (moveDisk s f t).moves - 1 ∧
    (undo (moveDisk s f t)).moves = s.moves ∧
    (redo (undo (moveDisk s f t))).towers = (moveDisk s f t).towers ∧
    (redo (undo (moveDisk s f t))).moves = (moveDisk s f t).moves := by
  have hmv : moveDisk s f t =
      { s with
        history := s.history ++ [s.towers]
        future := []
        towers := applyMove s.towers f t
        moves := s.moves + 1 } := by
    rw [moveDisk, if_pos h]
  have hhne : s.history ++ [s.towers] ≠ [] :=
    List.append_ne_nil_of_right_ne_nil s.history (by simp)
  have hmax : max 0 (s.moves + 1 - 1) = s.moves := by
    have he : s.moves + 1 - 1 = s.moves := by ring
    rw [he]
    exact max_eq_right hm
  have hun : undo (moveDisk s f t) =
      { s with
        history := s.history
        future := [applyMove s.towers f t]
        towers := s.towers
        moves := s.moves } := by
    rw [hmv, undo, if_neg hhne]
    simp only [List.getLastD_concat, List.dropLast_concat, hmax]
  have hre : redo (undo (moveDisk s f t)) =
      { s with
        history := s.history ++ [s.towers]
        future := []
        towers := applyMove s.towers f t
        moves := s.moves + 1 } := by
    rw [hun, redo, if_neg (by simp)]
    simp only [List.headD_cons, List.tail_cons]
  refine ⟨?_, ?_, ?_, ?_, ?_⟩
  · rw [hun]
  · rw [hun, hmv]
    simp only
    ring
  · rw [hun]
  · rw [hre, hmv]
  · rw [hre, hmv]

theorem move_undo_redo_roundtrip_witness :
    (undo (moveDisk initialState 0 2)).towers = initialState.towers ∧
    (undo (moveDisk initialState 0 2)).moves =
      (moveDisk initialState 0 2).moves - 1 ∧
    (undo (moveDisk initialState 0 2)).moves = initialState.moves ∧
    (redo (undo (moveDisk initialState 0 2))).towers =
      (moveDisk initialState 0 2).towers ∧
    (redo (undo (moveDisk initialState 0 2))).moves =
      (moveDisk initialState 0 2).moves :=
  move_undo_redo_roundtrip initialState 0 2 (by decide) (by decide)

/-! ### Claim C9 -/

theorem moveDisk_eq_moveDiskStale (s : GameState) (f t : Nat) :
    moveDisk s f t = moveDiskStale s.towers s f t := rfl

/-- C9: the claim (and spec) say auto-solve on the initial 3-disk board
applies the 7-move sequence (0,2),(0,1),(2,1),(0,2),(1,0),(1,2),(0,2) and
ends Idle with the win detector true.  The code does not: every timer
callback closes over the `towers` value captured when `startAutoSolve`
ran, so moves 2..7 are validated against and applied to the original board
[[3,2,1],[],[]].  (2,1), (1,0) and (1,2) are rejected — their source pegs
are empty in that stale board — and each accepted (0,2) or (0,1) rewrites
the live board from the stale one.  The run does terminate in Idle, but
with towers [[3,2],[],[1]], move count 4 and isWin false. -/
theorem autoSolve_three_stale_run :
    (startAutoSolve initialState).autoTimer =
      some ([[3, 2, 1], [], []],
        [(0, 2), (0, 1), (2, 1), (0, 2), (1, 0), (1, 2), (0, 2)]) ∧
    (startAutoSolve initialState).autoPlaying = true ∧
    (runTicks 7 (startAutoSolve initialState)).autoPlaying = false ∧
    (runTicks 7 (startAutoSolve initialState)).autoTimer = none ∧
    (runTicks 7 (startAutoSolve initialState)).towers = [[3, 2], [], [1]] ∧
    (runTicks 7 (startAutoSolve initialState)).moves = 4 ∧
    isWin (runTicks 7 (startAutoSolve initialState)).towers
      (runTicks 7 (startAutoSolve initialState)).diskCount = false := by
  decide

/-! ### Claim C10 -/

/-- C10: reset (with any disk count, as on a disk-count change) first
cancels any in-flight auto-solve: the pending scheduled step is cleared
and the auto-play state is Idle, so firing the auto-solve timer on the
freshly initialized state applies no move at all. -/
theorem resetGame_cancels_autoSolve (s : GameState) (count : Nat) :
    (resetGame s count).autoTimer = none ∧
    (resetGame s count).autoPlaying = false ∧
    tick (resetGame s count) = resetGame s count :=
  ⟨rfl, rfl, rfl⟩

end Towers
